import Mathlib

/-!
Verification of the transcript-to-mindmap pipeline
(`backend/pdf_extractor.py`, `backend/transcript_service.py`,
`backend/mindmap_service.py`, `backend/cli_mindmap.py`).

Python strings are modelled as `String` / `List Char`; Python exceptions as
`Except`; the two remote language-model calls and the JSON parser from the
standard library are external collaborators and appear as parameters of the
embedded functions.
-/

namespace Mindmap

/-- The ASCII whitespace characters recognised by Python's `str.strip` and
the regex class `\s` (space, tab, newline, carriage return, vertical tab,
form feed). -/
def pyIsSpace (c : Char) : Bool :=
  c == ' ' || c == '\t' || c == '\n' || c == '\r' || c == '\x0b' || c == '\x0c'

/-- `startsWith pat l` holds when `pat` is a prefix of `l`. -/
def startsWith : List Char → List Char → Bool
  | [], _ => true
  | _ :: _, [] => false
  | p :: ps, c :: cs => p == c && startsWith ps cs

/-- `occursIn pat l` holds when `pat` occurs as a contiguous substring of `l`. -/
def occursIn : List Char → List Char → Bool
  | pat, [] => startsWith pat []
  | pat, c :: cs => startsWith pat (c :: cs) || occursIn pat cs

/-- `endsWithL pat l` holds when `pat` is a suffix of `l`. -/
def endsWithL (pat l : List Char) : Bool :=
  startsWith pat.reverse l.reverse

/-- Python's `str.strip()`: drop leading and trailing whitespace. -/
def trimL (l : List Char) : List Char :=
  ((l.dropWhile pyIsSpace).reverse.dropWhile pyIsSpace).reverse

/-- Prepend a character to the first chunk of a chunk list (used by the
splitting functions; Python's `str.split` never returns an empty list). -/
def consHead (c : Char) : List (List Char) → List (List Char)
  | [] => [[c]]
  | h :: t => (c :: h) :: t

theorem length_dropWhile_le (p : α → Bool) (l : List α) :
    (l.dropWhile p).length ≤ l.length := by
  induction l with
  | nil => simp
  | cons a l ih =>
    by_cases h : p a
    · simpa [List.dropWhile_cons_of_pos h] using Nat.le_succ_of_le ih
    · simp [List.dropWhile_cons_of_neg h]

/-! ### `pdf_extractor.py` — paragraph segmentation and selection -/

/-- Python's `full_text.split("\n\n")`: cut at each non-overlapping
occurrence of two consecutive newline characters, scanning left to right. -/
def splitOnNN : List Char → List (List Char)
  | [] => [[]]
  | [c] => [[c]]
  | c :: c2 :: rest =>
    if c == '\n' && c2 == '\n' then [] :: splitOnNN rest
    else consHead c (splitOnNN (c2 :: rest))

/-- Python's `full_text.split("\n")`. -/
def splitNL : List Char → List (List Char)
  | [] => [[]]
  | c :: rest =>
    if c == '\n' then [] :: splitNL rest
    else consHead c (splitNL rest)

/-- Strip each chunk and discard the chunks that strip to nothing
(`[p.strip() for p in chunks if p.strip()]`). -/
def stripAndDiscard (chunks : List (List Char)) : List (List Char) :=
  (chunks.map trimL).filter (fun x => !x.isEmpty)

/-- Strategy A of `extract_paragraph` (line 35): split the page text on
`"\n\n"`, strip each chunk, discard empty chunks. -/
def blocksCode (l : List Char) : List (List Char) :=
  stripAndDiscard (splitOnNN l)

/-- Modelled from the spec: split the page text on blank-line boundaries,
i.e. on each maximal run of two or more consecutive newline characters,
then strip each chunk and discard empty chunks.  Stated for comparison with
`blocksCode`, the splitting the code actually performs. -/
def splitRuns : List Char → List (List Char)
  | [] => [[]]
  | [c] => [[c]]
  | c :: c2 :: rest =>
    if c == '\n' && c2 == '\n' then
      [] :: splitRuns (rest.dropWhile (fun x => x == '\n'))
    else consHead c (splitRuns (c2 :: rest))
  termination_by l => l.length
  decreasing_by
  · simp only [List.length_cons]
    have := length_dropWhile_le (fun x => x == '\n') rest
    omega
  · simp only [List.length_cons]
    omega

/-- Modelled from the spec: the blank-line-boundary block list ("candidate
set A" in the spec's words). -/
def blocksSpec (l : List Char) : List (List Char) :=
  stripAndDiscard (splitRuns l)

/-- Fallback strategy of `extract_paragraph` (line 43): split on single
newlines, strip each line, keep the non-empty ones. -/
def linesFallback (l : List Char) : List (List Char) :=
  stripAndDiscard (splitNL l)

/-- The two-tier segmentation of `extract_paragraph` (lines 34-45): use
strategy A unless it yields 0 or 1 chunks, in which case fall back to
per-line splitting. -/
def segmentL (l : List Char) : List (List Char) :=
  let paragraphs := blocksCode l
  if paragraphs.length ≤ 1 then linesFallback l else paragraphs

/-- String-level segmentation of a page's extracted text. -/
def segment (s : String) : List String :=
  (segmentL s.toList).map String.mk

/-- The exceptions raised by `extract_paragraph`. -/
inductive PyError where
  | fileNotFoundError (msg : String)
  | valueError (msg : String)
deriving DecidableEq

/-- The metadata dictionary returned by `extract_paragraph` (lines 69-75);
`extraction_time` is wall-clock noise and is not modelled. -/
structure ExtractionResult where
  text : String
  page : Int
  paragraph_index : Int
  length : Nat
deriving DecidableEq

/-- The out-of-range message of `extract_paragraph` line 53. -/
def paragraphRangeMsg (paragraph_index page_number : Int) (found : Nat) : String :=
  "Paragraph index " ++ toString paragraph_index ++ " out of range on page " ++
    toString page_number ++ ". Found " ++ toString found ++ " paragraphs."

/-- The page-out-of-range message of `extract_paragraph` line 29. -/
def pageRangeMsg (page_number : Int) : String :=
  "Page " ++ toString page_number ++ " out of range."

/-- `extract_paragraph` (lines 13-79).  The filesystem is an external
collaborator: `fs` maps a path to the list of extracted page texts of the
PDF stored there, or `none` when no file exists at that path. -/
def extract_paragraph (fs : String → Option (List String)) (pdf_path : String)
    (page_number paragraph_index : Int) : Except PyError ExtractionResult :=
  match fs pdf_path with
  | none => .error (.fileNotFoundError ("PDF not found at " ++ pdf_path))
  | some pages =>
    let internal_page_idx := page_number - 1
    if internal_page_idx < 0 || internal_page_idx ≥ (pages.length : Int) then
      .error (.valueError (pageRangeMsg page_number))
    else
      let full_text := pages.getD internal_page_idx.toNat ""
      let paragraphs := segment full_text
      if paragraph_index < 0 || paragraph_index ≥ (paragraphs.length : Int) then
        .error (.valueError (paragraphRangeMsg paragraph_index page_number paragraphs.length))
      else
        let target_text := paragraphs.getD paragraph_index.toNat ""
        .ok { text := target_text, page := page_number,
              paragraph_index := paragraph_index, length := target_text.length }

/-! ### `transcript_service.py` — LLM cleaning with silent fallback -/

/-- `clean_transcript` (lines 31-74).  The remote chat-completion call is an
external collaborator; its outcome is passed in as an `Except` value:
`.ok cleaned` models a successful response whose message content is
`cleaned`, `.error e` models any exception raised by the call (network
error, malformed response, timeout).  On success the function returns the
cleaned text; on any exception it logs and returns `raw_text` unchanged. -/
def clean_transcript (remote_result : Except String String) (raw_text : String) : String :=
  match remote_result with
  | .ok cleaned_text => cleaned_text
  | .error _ => raw_text

/-! ### `mindmap_service.py` — hierarchy extraction and diagram rendering -/

/-- JSON values, the result type of the standard library's `json.loads`. -/
inductive Json where
  | null
  | bool (b : Bool)
  | num (n : Int)
  | str (s : String)
  | arr (elems : List Json)
  | obj (fields : List (String × Json))

/-- The pattern of the first regex substitution in `clean_json_response`
(line 31): the literal `` ```json `` (whose trailing `\s*` eats the
following whitespace run). -/
def fenceJson : List Char := "```json".toList

/-- The plain code-fence marker `` ``` ``. -/
def fencePlain : List Char := "```".toList

/-- `re.sub(r"```json\s*", "", content)` (line 31): remove every
non-overlapping occurrence of `` ```json `` together with the maximal
whitespace run that follows it, scanning left to right. -/
theorem dropSix_dropWhile_lt (cs : List Char) :
    ((cs.drop 6).dropWhile pyIsSpace).length < cs.length + 1 := by
  have h1 := length_dropWhile_le pyIsSpace (cs.drop 6)
  have h2 : (cs.drop 6).length ≤ cs.length := by
    rw [List.length_drop]; omega
  omega

def stripJsonFences : List Char → List Char
  | [] => []
  | c :: cs =>
    if startsWith fenceJson (c :: cs) then
      stripJsonFences ((cs.drop 6).dropWhile pyIsSpace)
    else c :: stripJsonFences cs
  termination_by l => l.length
  decreasing_by
  · simp only [List.length_cons]
    exact dropSix_dropWhile_lt _
  · simp only [List.length_cons]
    omega

/-- `re.sub(r"```\s*$", "", content)` (line 32): remove the leftmost
occurrence of `` ``` `` that is followed by whitespace only up to the end
of the string (the greedy `\s*` runs to the end, where `$` matches), i.e.
truncate at that occurrence; leave the string unchanged when there is no
such occurrence. -/
def stripTrailingFence : List Char → List Char
  | [] => []
  | c :: cs =>
    if startsWith fencePlain (c :: cs) && (cs.drop 2).all pyIsSpace then []
    else c :: stripTrailingFence cs

/-- `clean_json_response` (lines 26-33): remove `` ```json `` fences, then
a trailing plain fence, then strip surrounding whitespace. -/
def clean_json_response (content : String) : String :=
  String.mk (trimL (stripTrailingFence (stripJsonFences content.toList)))

/-- The fallback node returned by `generate_mindmap_json` when the model's
output fails to parse as JSON (lines 78-81). -/
def errorSentinel : Json :=
  .obj [("root", .str "Error Parsing JSON"),
        ("children", .arr [.obj [("name", .str "Raw Text"), ("children", .arr [])]])]

/-- `generate_mindmap_json` (lines 36-84).  Two external collaborators are
parameters: `json_loads` is the standard library's JSON parser
(`.error e` models a raised `json.JSONDecodeError`), and `response` is the
outcome of the remote chat-completion call (`.error e` models any other
exception, which the final `except` clause re-raises).  On a successful
response the content is fence-stripped and parsed; a parse failure is
caught and replaced by the sentinel tree. -/
def generate_mindmap_json (json_loads : String → Except String Json)
    (response : Except String String) : Except String Json :=
  match response with
  | .error e => .error e
  | .ok content =>
    match json_loads (clean_json_response content) with
    | .ok mindmap_data => .ok mindmap_data
    | .error _ => .ok errorSentinel

/-- A node of the topic-tree JSON consumed by `json_to_mermaid`: the
`name` and `root` keys may each be present or absent, and `children`
defaults to the empty list (`node.get("children", [])`). -/
inductive MNode where
  | mk (nameKey rootKey : Option String) (children : List MNode)

/-- The `children` field of a node. -/
def MNode.children : MNode → List MNode
  | .mk _ _ cs => cs

/-- `node.get("name", node.get("root", "Topic"))` (line 97). -/
def labelOf : MNode → String
  | .mk nameKey rootKey _ => nameKey.getD (rootKey.getD "Topic")

/-- `label.replace('"', "'")` (line 97): replace every double quote in the
label by a single quote. -/
def sanitize (s : String) : String :=
  String.mk (s.toList.map (fun c => if c == '"' then '\'' else c))

/-- The node identifier `f"node{node_id}"` (line 94). -/
def nodeId (node_id : Nat) : String := "node" ++ Nat.repr node_id

/-- The standalone declaration line for the root node (line 102). -/
def nodeDeclLine (current_id label : String) : String :=
  "    " ++ current_id ++ "[\"" ++ label ++ "\"]"

/-- The edge declaration line for a non-root node (line 100). -/
def edgeDeclLine (parent_id current_id label : String) : String :=
  "    " ++ parent_id ++ " --> " ++ current_id ++ "[\"" ++ label ++ "\"]"

theorem sizeOf_children_lt (n : MNode) : sizeOf n.children < sizeOf n := by
  cases n with
  | mk a b cs => simp [MNode.children]

mutual

/-- `json_to_mermaid` (lines 92-110): emit the declaration line for this
node (an edge line from its parent when it has one), then the lines of its
children in order, threading the identifier counter; returns the lines and
the next free identifier. -/
def json_to_mermaid (node : MNode) (parent_id : Option String) (node_id : Nat) :
    List String × Nat :=
  let current_id := nodeId node_id
  let label := sanitize (labelOf node)
  let firstLine :=
    match parent_id with
    | some pid => edgeDeclLine pid current_id label
    | none => nodeDeclLine current_id label
  let rest := jtmChildren node.children current_id (node_id + 1)
  (firstLine :: rest.1, rest.2)
  termination_by sizeOf node
  decreasing_by
  · exact sizeOf_children_lt node

/-- The `for child in node.get("children", [])` loop of lines 105-108. -/
def jtmChildren (children : List MNode) (current_id : String) (child_id_counter : Nat) :
    List String × Nat :=
  match children with
  | [] => ([], child_id_counter)
  | child :: rest =>
    let r1 := json_to_mermaid child (some current_id) child_id_counter
    let r2 := jtmChildren rest current_id r1.2
    (r1.1 ++ r2.1, r2.2)
  termination_by sizeOf children
  decreasing_by
  · simp only [List.cons.sizeOf_spec]; omega
  · simp only [List.cons.sizeOf_spec]; omega

end

mutual

/-- The number of nodes of a topic tree. -/
def countNodes : MNode → Nat
  | .mk _ _ cs => 1 + countNodesList cs

/-- The total number of nodes of a list of topic trees. -/
def countNodesList : List MNode → Nat
  | [] => 0
  | c :: rest => countNodes c + countNodesList rest

end

/-! ### `cli_mindmap.py` — artifact filename derivation -/

/-- Python's `s.replace(pat, rep)`: replace every non-overlapping
occurrence of `pat`, scanning left to right (no-op when `pat` is empty at
a match site is irrelevant here since the guard keeps recursion sound). -/
def replaceAll (pat rep : List Char) : List Char → List Char
  | [] => []
  | c :: cs =>
    if startsWith pat (c :: cs) && !pat.isEmpty then
      rep ++ replaceAll pat rep ((c :: cs).drop pat.length)
    else c :: replaceAll pat rep cs
  termination_by l => l.length
  decreasing_by
  · rename_i h
    simp only [Bool.and_eq_true, Bool.not_eq_true'] at h
    simp only [List.length_cons, List.length_drop]
    cases pat with
    | nil => simp at h
    | cons p ps => simp only [List.length_cons]; omega
  · simp only [List.length_cons]; omega

/-- `s.replace(pat, rep)` at the `String` level. -/
def pyReplace (s pat rep : String) : String :=
  String.mk (replaceAll pat.toList rep.toList s.toList)

/-- Transcript filename derivation of `cli_mindmap.py` lines 46-48:
`args.output.replace(".html", ".txt")`, appending `.txt` when the
replacement changed nothing. -/
def txt_filename (output : String) : String :=
  let t := pyReplace output ".html" ".txt"
  if t = output then output ++ ".txt" else t

/-- JSON filename derivation of `cli_mindmap.py` lines 59-61. -/
def json_filename (output : String) : String :=
  let j := pyReplace output ".html" ".json"
  if j = output then output ++ ".json" else j

/-- The HTML artifact is written to `args.output` exactly as given
(`save_mindmap_html(mindmap_data, args.output)`, line 69, writing to
`output_file`, line 131). -/
def html_filename (output : String) : String := output

/-! ### Unfolding equations for the well-founded recursive definitions -/

theorem sjf_nil : stripJsonFences [] = [] := by rw [stripJsonFences]

theorem sjf_cons (c : Char) (cs : List Char) :
    stripJsonFences (c :: cs) =
      if startsWith fenceJson (c :: cs) then
        stripJsonFences ((cs.drop 6).dropWhile pyIsSpace)
      else c :: stripJsonFences cs := by
  rw [stripJsonFences]

theorem sr_nil : splitRuns [] = [[]] := by rw [splitRuns]

theorem sr_single (c : Char) : splitRuns [c] = [[c]] := by rw [splitRuns]

theorem sr_cons2 (c c2 : Char) (rest : List Char) :
    splitRuns (c :: c2 :: rest) =
      if c == '\n' && c2 == '\n' then
        [] :: splitRuns (rest.dropWhile (fun x => x == '\n'))
      else consHead c (splitRuns (c2 :: rest)) := by
  rw [splitRuns]

theorem ra_cons (pat rep : List Char) (c : Char) (cs : List Char) :
    replaceAll pat rep (c :: cs) =
      if startsWith pat (c :: cs) && !pat.isEmpty then
        rep ++ replaceAll pat rep ((c :: cs).drop pat.length)
      else c :: replaceAll pat rep cs := by
  rw [replaceAll]

theorem jtm_def (node : MNode) (parent_id : Option String) (node_id : Nat) :
    json_to_mermaid node parent_id node_id =
      (((match parent_id with
        | some pid => edgeDeclLine pid (nodeId node_id) (sanitize (labelOf node))
        | none => nodeDeclLine (nodeId node_id) (sanitize (labelOf node))) ::
        (jtmChildren node.children (nodeId node_id) (node_id + 1)).1),
       (jtmChildren node.children (nodeId node_id) (node_id + 1)).2) := by
  rw [json_to_mermaid.eq_def]

theorem jtmC_nil (cid : String) (k : Nat) : jtmChildren [] cid k = ([], k) := by
  rw [jtmChildren]

theorem jtmC_cons (child : MNode) (rest : List MNode) (cid : String) (k : Nat) :
    jtmChildren (child :: rest) cid k =
      ((json_to_mermaid child (some cid) k).1 ++
        (jtmChildren rest cid (json_to_mermaid child (some cid) k).2).1,
       (jtmChildren rest cid (json_to_mermaid child (some cid) k).2).2) := by
  rw [jtmChildren]

theorem cn_def (a b : Option String) (cs : List MNode) :
    countNodes (.mk a b cs) = 1 + countNodesList cs := by rw [countNodes]

theorem cnl_nil : countNodesList [] = 0 := by rw [countNodesList]

theorem cnl_cons (c : MNode) (rest : List MNode) :
    countNodesList (c :: rest) = countNodes c + countNodesList rest := by rw [countNodesList]

/-! ### Substring facts -/

theorem startsWith_append_self (p t : List Char) : startsWith p (p ++ t) = true := by
  induction p with
  | nil => rfl
  | cons c cs ih => simp [startsWith, ih]

theorem occursIn_of_startsWith {pat l : List Char} (h : startsWith pat l = true) :
    occursIn pat l = true := by
  cases l with
  | nil => simpa [occursIn] using h
  | cons c cs => simp [occursIn, h]

theorem occursIn_append_right {pat rest : List Char} (pre : List Char)
    (h : occursIn pat rest = true) : occursIn pat (pre ++ rest) = true := by
  induction pre with
  | nil => simpa using h
  | cons c cs ih => simp [occursIn, ih]

theorem occursIn_sandwich (pat pre post : List Char) :
    occursIn pat (pre ++ pat ++ post) = true := by
  rw [List.append_assoc]
  exact occursIn_append_right pre (occursIn_of_startsWith (startsWith_append_self pat post))

/-- The out-of-range message really carries the paragraph count: `toString n`
occurs in `paragraphRangeMsg pi pn n` as a substring. -/
theorem paragraphRangeMsg_contains_count (pi pn : Int) (n : Nat) :
    occursIn (toString n).toList (paragraphRangeMsg pi pn n).toList = true := by
  have : (paragraphRangeMsg pi pn n).toList =
      ("Paragraph index " ++ toString pi ++ " out of range on page " ++
        toString pn ++ ". Found ").toList ++ (toString n).toList ++ " paragraphs.".toList := by
    simp [paragraphRangeMsg, String.toList]
  rw [this]
  exact occursIn_sandwich _ _ _

/-! ### Claims C1, C2, C3 -/

/-- C1: for every model response string whose content fails JSON parsing
(after code-fence stripping), `generate_mindmap_json` returns the fixed
sentinel tree `{root: "Error Parsing JSON", children: [{name: "Raw Text",
children: []}]}` and does not raise. -/
theorem generate_mindmap_json_parse_failure_sentinel
    (json_loads : String → Except String Json) (content err : String)
    (hparse : json_loads (clean_json_response content) = .error err) :
    generate_mindmap_json json_loads (.ok content) =
      .ok (.obj [("root", .str "Error Parsing JSON"),
                 ("children", .arr [.obj [("name", .str "Raw Text"),
                                          ("children", .arr [])]])]) := by
  simp [generate_mindmap_json, errorSentinel, hparse]

/-- Witness for C1 at a concrete failing parser and content. -/
theorem generate_mindmap_json_parse_failure_sentinel_witness :
    generate_mindmap_json (fun _ => .error "Expecting value") (.ok "this is not json") =
      .ok (.obj [("root", .str "Error Parsing JSON"),
                 ("children", .arr [.obj [("name", .str "Raw Text"),
                                          ("children", .arr [])]])]) :=
  generate_mindmap_json_parse_failure_sentinel
    (fun _ => .error "Expecting value") "this is not json" "Expecting value" rfl

/-- C2: for every input string `raw_text`, if the remote completion call
made by `clean_transcript` fails with any exception, `clean_transcript`
returns exactly `raw_text` and does not propagate the error. -/
theorem clean_transcript_error_returns_raw_text (e raw_text : String) :
    clean_transcript (.error e) raw_text = raw_text := rfl

/-- C3: for every page whose segmentation yields `n` paragraphs and every
requested index outside `[0, n)`, `extract_paragraph` fails with the range
error whose message contains the true count `n`; in particular `n = 0`
with index `0` raises rather than returning an empty string. -/
theorem extract_paragraph_index_out_of_range
    (fs : String → Option (List String)) (pdf_path : String)
    (pages : List String) (page_number paragraph_index : Int)
    (hfs : fs pdf_path = some pages)
    (h1 : 0 < page_number) (h2 : page_number ≤ (pages.length : Int))
    (hidx : paragraph_index < 0 ∨
      ((segment (pages.getD (page_number - 1).toNat "")).length : Int) ≤ paragraph_index) :
    extract_paragraph fs pdf_path page_number paragraph_index =
      .error (.valueError (paragraphRangeMsg paragraph_index page_number
        (segment (pages.getD (page_number - 1).toNat "")).length)) ∧
    occursIn (toString (segment (pages.getD (page_number - 1).toNat "")).length).toList
      (paragraphRangeMsg paragraph_index page_number
        (segment (pages.getD (page_number - 1).toNat "")).length).toList = true := by
  refine ⟨?_, paragraphRangeMsg_contains_count _ _ _⟩
  simp only [extract_paragraph, hfs]
  rw [if_neg, if_pos]
  · rcases hidx with h | h
    · simp only [Bool.or_eq_true, decide_eq_true_eq]
      exact Or.inl h
    · simp only [Bool.or_eq_true, decide_eq_true_eq]
      exact Or.inr (by exact_mod_cast h)
  · simp only [Bool.or_eq_true, decide_eq_true_eq, not_or, not_lt]
    omega

/-- Witness for C3 at the edge case the spec singles out: a page that
segments to zero paragraphs and requested index `0`. -/
theorem extract_paragraph_index_out_of_range_witness :
    extract_paragraph (fun _ => some [""]) "doc.pdf" 1 0 =
      .error (.valueError (paragraphRangeMsg 0 1 (segment "").length)) ∧
    occursIn (toString (segment "").length).toList
      (paragraphRangeMsg 0 1 (segment "").length).toList = true :=
  extract_paragraph_index_out_of_range (fun _ => some [""]) "doc.pdf" [""] 1 0
    rfl (by decide) (by decide) (Or.inr (by decide))

/-! ### Claims C6 and C10 — diagram rendering structure -/

/-- C6: rendering a tree consisting of a root with exactly two childless
children produces exactly three declaration lines — one standalone node
declaration and two edge declarations — with the children's lines in the
input order of the `children` sequence and identifiers `node0`, `node1`,
`node2` assigned in pre-order starting at `0`. -/
theorem json_to_mermaid_root_two_children (na ra nb rb nc rc : Option String) :
    json_to_mermaid (.mk na ra [.mk nb rb [], .mk nc rc []]) none 0 =
      ([nodeDeclLine (nodeId 0) (sanitize (na.getD (ra.getD "Topic"))),
        edgeDeclLine (nodeId 0) (nodeId 1) (sanitize (nb.getD (rb.getD "Topic"))),
        edgeDeclLine (nodeId 0) (nodeId 2) (sanitize (nc.getD (rc.getD "Topic")))], 3) := by
  simp [jtm_def, jtmC_cons, jtmC_nil, MNode.children, labelOf]

theorem jtmChildren_count (cs : List MNode)
    (ih : ∀ c ∈ cs, ∀ (pid : Option String) (k : Nat),
      (json_to_mermaid c pid k).1.length = countNodes c ∧
      (json_to_mermaid c pid k).2 = k + countNodes c) :
    ∀ (cid : String) (k : Nat),
      (jtmChildren cs cid k).1.length = countNodesList cs ∧
      (jtmChildren cs cid k).2 = k + countNodesList cs := by
  induction cs with
  | nil => intro cid k; simp [jtmC_nil, cnl_nil]
  | cons c rest ihl =>
    intro cid k
    have hc := ih c (by simp) (some cid) k
    have hr := ihl (fun c' hc' => ih c' (by simp [hc'])) cid (json_to_mermaid c (some cid) k).2
    rw [jtmC_cons, cnl_cons]
    refine ⟨?_, ?_⟩
    · rw [List.length_append, hr.1, hc.1]
    · rw [hr.2, hc.2]; omega

theorem jtm_count : ∀ (N : Nat) (node : MNode), sizeOf node ≤ N →
    ∀ (pid : Option String) (k : Nat),
      (json_to_mermaid node pid k).1.length = countNodes node ∧
      (json_to_mermaid node pid k).2 = k + countNodes node := by
  intro N
  induction N with
  | zero =>
    intro node h
    cases node with
    | mk a b cs => simp at h
  | succ N ihN =>
    intro node hle pid k
    cases node with
    | mk a b cs =>
      have hch : ∀ c ∈ cs, ∀ (pid' : Option String) (k' : Nat),
          (json_to_mermaid c pid' k').1.length = countNodes c ∧
          (json_to_mermaid c pid' k').2 = k' + countNodes c := by
        intro c hc pid' k'
        apply ihN
        have h1 : sizeOf c < sizeOf cs := List.sizeOf_lt_of_mem hc
        have h2 : sizeOf (MNode.mk a b cs) ≤ N + 1 := hle
        simp [MNode.mk.sizeOf_spec] at h2
        omega
      have hmain := jtmChildren_count cs hch (nodeId k) (k + 1)
      rw [jtm_def, cn_def]
      refine ⟨?_, ?_⟩
      · simp only [MNode.children, List.length_cons, hmain.1]; omega
      · simp only [MNode.children, hmain.2]; omega

/-- C10: for every topic tree and every starting identifier `k`,
`json_to_mermaid` emits exactly one declaration line per node of the
subtree and returns `k` plus the subtree's node count as the next free
identifier, so sibling subtrees never reuse an identifier. -/
theorem json_to_mermaid_line_count_and_next_id (node : MNode) (pid : Option String) (k : Nat) :
    (json_to_mermaid node pid k).1.length = countNodes node ∧
    (json_to_mermaid node pid k).2 = k + countNodes node :=
  jtm_count (sizeOf node) node le_rfl pid k

/-! ### Claim C7 — label sanitization and quote balance -/

/-- The number of double-quote characters in a string. -/
def quoteCount (s : String) : Nat := s.toList.countP (fun c => c == '"')

theorem quoteCount_append (a b : String) :
    quoteCount (a ++ b) = quoteCount a + quoteCount b := by
  simp [quoteCount, String.toList, List.countP_append]

theorem quoteCount_sanitize (s : String) : quoteCount (sanitize s) = 0 := by
  simp only [quoteCount, sanitize, String.toList, List.countP_map]
  rw [List.countP_eq_zero]
  intro a _
  by_cases h : a == '"' <;> simp [Function.comp, h]

theorem digitChar_ne_quote (m : Nat) : (Nat.digitChar m == '"') = false := by
  by_cases h : m < 16
  · interval_cases m <;> decide
  · have e0 : ¬ m = 0 := by omega
    have e1 : ¬ m = 1 := by omega
    have e2 : ¬ m = 2 := by omega
    have e3 : ¬ m = 3 := by omega
    have e4 : ¬ m = 4 := by omega
    have e5 : ¬ m = 5 := by omega
    have e6 : ¬ m = 6 := by omega
    have e7 : ¬ m = 7 := by omega
    have e8 : ¬ m = 8 := by omega
    have e9 : ¬ m = 9 := by omega
    have ea : ¬ m = 10 := by omega
    have eb : ¬ m = 11 := by omega
    have ec : ¬ m = 12 := by omega
    have ed : ¬ m = 13 := by omega
    have ee : ¬ m = 14 := by omega
    have ef : ¬ m = 15 := by omega
    have hstar : Nat.digitChar m = '*' := by
      delta Nat.digitChar
      rw [if_neg e0, if_neg e1, if_neg e2, if_neg e3, if_neg e4, if_neg e5, if_neg e6,
          if_neg e7, if_neg e8, if_neg e9, if_neg ea, if_neg eb, if_neg ec, if_neg ed,
          if_neg ee, if_neg ef]
    rw [hstar]; decide

theorem toDigitsCore_no_quote :
    ∀ (fuel n : Nat) (ds : List Char), (∀ c ∈ ds, (c == '"') = false) →
      ∀ c ∈ Nat.toDigitsCore 10 fuel n ds, (c == '"') = false := by
  intro fuel
  induction fuel with
  | zero => intro n ds hds; simpa [Nat.toDigitsCore] using hds
  | succ fuel ih =>
    intro n ds hds c hc
    simp only [Nat.toDigitsCore] at hc
    by_cases h : n / 10 = 0
    · rw [if_pos h] at hc
      rcases List.mem_cons.mp hc with h2 | h2
      · subst h2; exact digitChar_ne_quote _
      · exact hds c h2
    · rw [if_neg h] at hc
      refine ih (n / 10) (Nat.digitChar (n % 10) :: ds) ?_ c hc
      intro c' hc'
      rcases List.mem_cons.mp hc' with h2 | h2
      · subst h2; exact digitChar_ne_quote _
      · exact hds c' h2

theorem quoteCount_nodeId (k : Nat) : quoteCount (nodeId k) = 0 := by
  have h1 : quoteCount "node" = 0 := by decide
  have h2 : quoteCount (Nat.repr k) = 0 := by
    simp only [quoteCount, Nat.repr, Nat.toDigits, String.toList]
    rw [List.countP_eq_zero]
    intro a ha
    have := toDigitsCore_no_quote (k + 1) k [] (by simp) a
      (by simpa [List.asString] using ha)
    simp [this]
  simp [nodeId, quoteCount_append, h1, h2]

theorem quoteCount_nodeDeclLine (cid label : String)
    (h1 : quoteCount cid = 0) (h2 : quoteCount label = 0) :
    quoteCount (nodeDeclLine cid label) = 2 := by
  simp only [nodeDeclLine, quoteCount_append, h1, h2]
  decide

theorem quoteCount_edgeDeclLine (pid cid label : String)
    (h0 : quoteCount pid = 0) (h1 : quoteCount cid = 0) (h2 : quoteCount label = 0) :
    quoteCount (edgeDeclLine pid cid label) = 2 := by
  simp only [edgeDeclLine, quoteCount_append, h0, h1, h2]
  decide

theorem jtmChildren_quotes (cs : List MNode)
    (ih : ∀ c ∈ cs, ∀ (pid : Option String) (k : Nat),
      (∀ p, pid = some p → quoteCount p = 0) →
      ((json_to_mermaid c pid k).1.all fun line => quoteCount line == 2) = true) :
    ∀ (cid : String) (k : Nat), quoteCount cid = 0 →
      ((jtmChildren cs cid k).1.all fun line => quoteCount line == 2) = true := by
  induction cs with
  | nil => intro cid k hcid; simp [jtmC_nil]
  | cons c rest ihl =>
    intro cid k hcid
    rw [jtmC_cons]
    simp only [List.all_append, Bool.and_eq_true]
    exact ⟨ih c (by simp) (some cid) k (fun p hp => by cases hp; exact hcid),
           ihl (fun c' hc' => ih c' (by simp [hc'])) cid _ hcid⟩

theorem jtm_quotes : ∀ (N : Nat) (node : MNode), sizeOf node ≤ N →
    ∀ (pid : Option String) (k : Nat), (∀ p, pid = some p → quoteCount p = 0) →
      ((json_to_mermaid node pid k).1.all fun line => quoteCount line == 2) = true := by
  intro N
  induction N with
  | zero =>
    intro node h
    cases node with
    | mk a b cs => simp at h
  | succ N ihN =>
    intro node hle pid k hpid
    cases node with
    | mk a b cs =>
      have hch : ∀ c ∈ cs, ∀ (pid' : Option String) (k' : Nat),
          (∀ p, pid' = some p → quoteCount p = 0) →
          ((json_to_mermaid c pid' k').1.all fun line => quoteCount line == 2) = true := by
        intro c hc pid' k' hp'
        apply ihN
        · have h1 : sizeOf c < sizeOf cs := List.sizeOf_lt_of_mem hc
          have h2 : sizeOf (MNode.mk a b cs) ≤ N + 1 := hle
          simp [MNode.mk.sizeOf_spec] at h2
          omega
        · exact hp'
      rw [jtm_def]
      simp only [List.all_cons, Bool.and_eq_true]
      constructor
      · cases pid with
        | none =>
          have := quoteCount_nodeDeclLine (nodeId k) (sanitize (labelOf (MNode.mk a b cs)))
            (quoteCount_nodeId k) (quoteCount_sanitize _)
          simp [this]
        | some p =>
          have := quoteCount_edgeDeclLine p (nodeId k) (sanitize (labelOf (MNode.mk a b cs)))
            (hpid p rfl) (quoteCount_nodeId k) (quoteCount_sanitize _)
          simp [this]
      · exact jtmChildren_quotes cs hch (nodeId k) (k + 1) (quoteCount_nodeId k)

/-- C7: every node's declaration line carries the node's label with each
double quote replaced by a single quote (`sanitize`), and in a full render
every emitted line contains exactly two double-quote characters — the two
delimiters of its label — so no line has an unterminated quoted string. -/
theorem json_to_mermaid_sanitized_labels (node : MNode) :
    (json_to_mermaid node none 0).1.head? =
      some (nodeDeclLine (nodeId 0) (sanitize (labelOf node))) ∧
    (∀ (pid : String) (k : Nat), (json_to_mermaid node (some pid) k).1.head? =
      some (edgeDeclLine pid (nodeId k) (sanitize (labelOf node)))) ∧
    ((json_to_mermaid node none 0).1.all fun line => quoteCount line == 2) = true := by
  refine ⟨?_, ?_, ?_⟩
  · rw [jtm_def]; rfl
  · intro pid k; rw [jtm_def]; rfl
  · exact jtm_quotes (sizeOf node) node le_rfl none 0 (fun p hp => by cases hp)

/-! ### Claim C9 — artifact filename derivation -/

theorem ra_nil (pat rep : List Char) : replaceAll pat rep [] = [] := by rw [replaceAll]

theorem occursIn_cons_false {pat : List Char} {c : Char} {cs : List Char}
    (h : occursIn pat (c :: cs) = false) :
    startsWith pat (c :: cs) = false ∧ occursIn pat cs = false := by
  simpa [occursIn, Bool.or_eq_false_iff] using h

theorem replaceAll_of_no_occurrence {pat rep l : List Char}
    (h : occursIn pat l = false) : replaceAll pat rep l = l := by
  induction l with
  | nil => exact ra_nil pat rep
  | cons c cs ih =>
    obtain ⟨h1, h2⟩ := occursIn_cons_false h
    rw [ra_cons, if_neg (by simp [h1]), ih h2]

theorem startsWith_dropLast {pat x : List Char}
    (h : startsWith pat x = true) (hlen : pat.length < x.length) :
    startsWith pat x.dropLast = true := by
  induction pat generalizing x with
  | nil => rfl
  | cons p ps ih =>
    cases x with
    | nil => simp at hlen
    | cons c xs =>
      simp only [startsWith, Bool.and_eq_true, beq_iff_eq] at h
      cases xs with
      | nil => simp at hlen
      | cons y ys =>
        rw [List.dropLast_cons_of_ne_nil (by simp)]
        simp only [startsWith, Bool.and_eq_true, beq_iff_eq]
        exact ⟨h.1, ih h.2 (by simpa using Nat.lt_of_succ_lt_succ hlen)⟩

/-- `str.replace` on a string whose only occurrence of `pat` is the final
suffix: that suffix is replaced. -/
theorem replaceAll_suffix {pat rep : List Char} (hpat : pat ≠ []) :
    ∀ l : List Char, occursIn pat (l ++ pat.dropLast) = false →
      replaceAll pat rep (l ++ pat) = l ++ rep := by
  intro l
  induction l with
  | nil =>
    intro _
    cases pat with
    | nil => exact absurd rfl hpat
    | cons p ps =>
      have hsw : startsWith (p :: ps) (p :: ps) = true := by
        have h3 := startsWith_append_self (p :: ps) []
        rwa [List.append_nil] at h3
      rw [List.nil_append, ra_cons, if_pos (by simp [hsw]),
        List.drop_length, ra_nil, List.append_nil, List.nil_append]
  | cons c l' ih =>
    intro hocc
    have hocc' : occursIn pat (l' ++ pat.dropLast) = false :=
      (occursIn_cons_false (by simpa using hocc)).2
    have hsw : startsWith pat (c :: (l' ++ pat)) = false := by
      by_contra hcon
      rw [Bool.not_eq_false] at hcon
      have hlen : pat.length < (c :: (l' ++ pat)).length := by
        simp [List.length_append]; omega
      have hdl := startsWith_dropLast hcon hlen
      rw [show (c :: (l' ++ pat)).dropLast = c :: (l' ++ pat.dropLast) by
        rw [List.dropLast_cons_of_ne_nil (by simp [hpat]),
            List.dropLast_append_of_ne_nil _ hpat]] at hdl
      have := occursIn_of_startsWith hdl
      rw [show c :: (l' ++ pat.dropLast) = (c :: l') ++ pat.dropLast from rfl] at this
      rw [this] at hocc
      exact Bool.true_eq_false.mp hocc
    rw [List.cons_append, ra_cons, if_neg (by simp [hsw]), ih hocc']
    rfl

/-- `str.replace` on a string that begins with `pat`: the occurrence is
replaced and scanning resumes after it. -/
theorem replaceAll_prefix_match {pat rep : List Char} (hpat : pat ≠ []) (t : List Char) :
    replaceAll pat rep (pat ++ t) = rep ++ replaceAll pat rep t := by
  cases pat with
  | nil => exact absurd rfl hpat
  | cons p ps =>
    have hsw : startsWith (p :: ps) ((p :: ps) ++ t) = true := startsWith_append_self _ _
    rw [show ((p :: ps) ++ t : List Char) = p :: (ps ++ t) from rfl] at hsw
    rw [show ((p :: ps) ++ t : List Char) = p :: (ps ++ t) from rfl, ra_cons,
      if_pos (by simp [hsw])]
    congr 1
    rw [show (p :: (ps ++ t) : List Char).drop (p :: ps).length = (ps ++ t).drop ps.length
      from rfl, List.drop_left]

theorem mk_toList (s : String) : String.mk s.toList = s := rfl

theorem mk_append_toList (s t : String) : String.mk (s.toList ++ t.toList) = s ++ t := rfl

/-- C9 counterexample: `"a.html.bak"` does not end in `.html`, yet the
derived transcript name is `"a.txt.bak"` — the internal `.html` occurrence
is replaced — and not `"a.html.bak" ++ ".txt"` as the claim requires for
base names that do not end in `.html`. -/
theorem txt_filename_internal_html_replaced :
    endsWithL ".html".toList "a.html.bak".toList = false ∧
    txt_filename "a.html.bak" ≠ "a.html.bak" ++ ".txt" ∧
    txt_filename "a.html.bak" = "a.txt.bak" := by
  have e1 : ("a.html.bak".toList : List Char) = 'a' :: (".html".toList ++ ".bak".toList) := by
    decide
  have e2 : replaceAll ".html".toList ".txt".toList ('a' :: (".html".toList ++ ".bak".toList)) =
      'a' :: replaceAll ".html".toList ".txt".toList (".html".toList ++ ".bak".toList) := by
    rw [ra_cons, if_neg (by decide)]
  have e3 : replaceAll ".html".toList ".txt".toList (".html".toList ++ ".bak".toList) =
      ".txt".toList ++ replaceAll ".html".toList ".txt".toList ".bak".toList :=
    replaceAll_prefix_match (by decide) ".bak".toList
  have e4 : replaceAll ".html".toList ".txt".toList ".bak".toList = ".bak".toList :=
    replaceAll_of_no_occurrence (by decide)
  have etxt : txt_filename "a.html.bak" = "a.txt.bak" := by
    simp only [txt_filename, pyReplace]
    rw [e1, e2, e3, e4, if_neg (by decide)]
    decide
  refine ⟨by decide, ?_, etxt⟩
  rw [etxt]
  decide

/-- C9 amended: the `.txt` and `.json` artifact names are derived by
replacing every occurrence of the substring `.html` in the base name; when
the base name contains no `.html` occurrence at all, the extension is
appended to the full base name instead, and the HTML artifact is written
to the base name exactly as given.  In particular a base name whose only
`.html` occurrence is its final suffix has that suffix replaced. -/
theorem artifact_filenames_replace_all :
    (∀ b : String, occursIn ".html".toList b.toList = false →
      txt_filename b = b ++ ".txt" ∧ json_filename b = b ++ ".json" ∧ html_filename b = b) ∧
    (∀ s : String, occursIn ".html".toList (s.toList ++ ".htm".toList) = false →
      txt_filename (s ++ ".html") = s ++ ".txt" ∧ json_filename (s ++ ".html") = s ++ ".json") := by
  constructor
  · intro b hb
    have ht : pyReplace b ".html" ".txt" = b := by
      simp only [pyReplace, replaceAll_of_no_occurrence hb, mk_toList]
    have hj : pyReplace b ".html" ".json" = b := by
      simp only [pyReplace, replaceAll_of_no_occurrence hb, mk_toList]
    refine ⟨?_, ?_, rfl⟩
    · simp only [txt_filename]; rw [ht, if_pos rfl]
    · simp only [json_filename]; rw [hj, if_pos rfl]
  · intro s hs
    have hd : (".html".toList : List Char).dropLast = ".htm".toList := by decide
    have hst : ((s ++ ".html").toList : List Char) = s.toList ++ ".html".toList := rfl
    have hrt : replaceAll ".html".toList ".txt".toList (s.toList ++ ".html".toList) =
        s.toList ++ ".txt".toList :=
      replaceAll_suffix (by decide) s.toList (by rw [hd]; exact hs)
    have hrj : replaceAll ".html".toList ".json".toList (s.toList ++ ".html".toList) =
        s.toList ++ ".json".toList :=
      replaceAll_suffix (by decide) s.toList (by rw [hd]; exact hs)
    have ht : pyReplace (s ++ ".html") ".html" ".txt" = s ++ ".txt" := by
      simp only [pyReplace]; rw [hst, hrt, mk_append_toList]
    have hj : pyReplace (s ++ ".html") ".html" ".json" = s ++ ".json" := by
      simp only [pyReplace]; rw [hst, hrj, mk_append_toList]
    have hnet : ¬ ((s ++ ".txt" : String) = s ++ ".html") := by
      intro h
      have h2 := congrArg String.length h
      simp [String.length_append] at h2
      exact absurd h2 (by decide)
    have hnej : ¬ ((s ++ ".json" : String) = s ++ ".html") := by
      intro h
      have h2 := congrArg String.toList h
      rw [show (s ++ ".json" : String).toList = s.toList ++ ".json".toList from rfl,
          show (s ++ ".html" : String).toList = s.toList ++ ".html".toList from rfl] at h2
      have h3 := congrArg (List.drop s.toList.length) h2
      rw [List.drop_left, List.drop_left] at h3
      exact absurd h3 (by decide)
    constructor
    · simp only [txt_filename]; rw [ht, if_neg hnet]
    · simp only [json_filename]; rw [hj, if_neg hnej]

/-- Witness for the amended C9 at the CLI's default base name
`final_mindmap.html`, whose only `.html` occurrence is the suffix. -/
theorem artifact_filenames_replace_all_witness :
    txt_filename ("final_mindmap" ++ ".html") = "final_mindmap" ++ ".txt" ∧
    json_filename ("final_mindmap" ++ ".html") = "final_mindmap" ++ ".json" :=
  artifact_filenames_replace_all.2 "final_mindmap" (by decide)

/-! ### Claim C8 — code-fence stripping before JSON parsing -/


def btChar : Char := "`".toList.headD ' '

theorem btick_singleton : ("`".toList : List Char) = [btChar] := by decide

theorem fenceJson_shape : fenceJson = btChar :: "``json".toList := by decide

theorem fencePlain_shape : fencePlain = btChar :: "``".toList := by decide

theorem no_backtick_head {c : Char} {cs : List Char}
    (h : occursIn "`".toList (c :: cs) = false) :
    (btChar == c) = false ∧ occursIn "`".toList cs = false := by
  obtain ⟨h1, h2⟩ := occursIn_cons_false h
  rw [btick_singleton] at h1
  simp only [startsWith, Bool.and_true] at h1
  exact ⟨h1, h2⟩

theorem sw_fenceJson_false {c : Char} {X : List Char} (hc : (btChar == c) = false) :
    startsWith fenceJson (c :: X) = false := by
  rw [fenceJson_shape]
  simp [startsWith, hc]

theorem sw_fencePlain_false {c : Char} {X : List Char} (hc : (btChar == c) = false) :
    startsWith fencePlain (c :: X) = false := by
  rw [fencePlain_shape]
  simp [startsWith, hc]

theorem sjf_no_occurrence {l : List Char} (h : occursIn fenceJson l = false) :
    stripJsonFences l = l := by
  induction l with
  | nil => exact sjf_nil
  | cons c cs ih =>
    obtain ⟨h1, h2⟩ := occursIn_cons_false h
    rw [sjf_cons, if_neg (by simp [h1]), ih h2]

theorem occursIn_fenceJson_append {l t : List Char}
    (hl : occursIn "`".toList l = false) (ht : occursIn fenceJson t = false) :
    occursIn fenceJson (l ++ t) = false := by
  induction l with
  | nil => simpa using ht
  | cons c cs ih =>
    obtain ⟨hc, hcs⟩ := no_backtick_head hl
    rw [List.cons_append]
    simp only [occursIn, Bool.or_eq_false_iff]
    exact ⟨sw_fenceJson_false hc, ih hcs⟩

theorem stf_append_fence {l : List Char} (hl : occursIn "`".toList l = false) :
    stripTrailingFence (l ++ "\n```".toList) = l ++ ['\n'] := by
  induction l with
  | nil => decide
  | cons c cs ih =>
    obtain ⟨hc, hcs⟩ := no_backtick_head hl
    rw [List.cons_append, stripTrailingFence]
    rw [if_neg (by simp [sw_fencePlain_false hc]), ih hcs]
    rfl

theorem dropWhile_fix_head {p : Char → Bool} {c : Char} {cs : List Char}
    (h : (c :: cs).dropWhile p = c :: cs) : p c = false := by
  by_contra hc
  rw [Bool.not_eq_false] at hc
  rw [List.dropWhile_cons_of_pos hc] at h
  have h2 := congrArg List.length h
  have hle := length_dropWhile_le p cs
  simp at h2
  omega

theorem trim_append_newline {l : List Char} (hne : l ≠ [])
    (hfront : l.dropWhile pyIsSpace = l)
    (hback : l.reverse.dropWhile pyIsSpace = l.reverse) :
    trimL (l ++ ['\n']) = l := by
  obtain ⟨c, cs, rfl⟩ : ∃ c cs, l = c :: cs := by
    cases l with
    | nil => exact absurd rfl hne
    | cons c cs => exact ⟨c, cs, rfl⟩
  have hc : pyIsSpace c = false := dropWhile_fix_head hfront
  unfold trimL
  rw [List.cons_append, List.dropWhile_cons_of_neg (by simp [hc])]
  rw [show (c :: (cs ++ ['\n'])).reverse = '\n' :: (c :: cs).reverse by simp]
  rw [List.dropWhile_cons_of_pos (by decide), hback, List.reverse_reverse]



/-- C8 amended: `clean_json_response` strips a `` ```json ``-tagged opening
fence (with its trailing whitespace) and a trailing plain fence, so for a
JSON body wrapped as `` ```json\nBODY\n``` `` the cleanup recovers the body
exactly; a plain opening fence without a language tag is not stripped (see
the counterexample). -/
theorem clean_json_response_json_fence_stripped (s : String)
    (hq : occursIn "`".toList s.toList = false)
    (hfront : s.toList.dropWhile pyIsSpace = s.toList)
    (hback : s.toList.reverse.dropWhile pyIsSpace = s.toList.reverse)
    (hne : s.toList ≠ []) :
    clean_json_response ("```json\n" ++ s ++ "\n```") = s := by
  have e0 : (("```json\n" ++ s ++ "\n```" : String)).toList =
      btChar :: ("``json".toList ++ ('\n' :: (s.toList ++ "\n```".toList))) := by
    rw [show (("```json\n" ++ s ++ "\n```" : String)).toList =
      ("```json\n".toList ++ s.toList) ++ "\n```".toList from rfl]
    rw [show ("```json\n".toList : List Char) =
      btChar :: ("``json".toList ++ ['\n']) from by decide]
    simp [List.append_assoc]
  obtain ⟨c, cs, hsl⟩ : ∃ c cs, s.toList = c :: cs := by
    cases h : s.toList with
    | nil => exact absurd h hne
    | cons c cs => exact ⟨c, cs, rfl⟩
  have hcns : pyIsSpace c = false := dropWhile_fix_head (hsl ▸ hfront)
  have e1 : stripJsonFences (("```json\n" ++ s ++ "\n```" : String)).toList =
      stripJsonFences (s.toList ++ "\n```".toList) := by
    rw [e0, sjf_cons, if_pos]
    · congr 1
      rw [show (("``json".toList ++ ('\n' :: (s.toList ++ "\n```".toList))) : List Char).drop 6 =
        '\n' :: (s.toList ++ "\n```".toList) from by
          rw [show (6 : Nat) = ("``json".toList : List Char).length from by decide]
          exact List.drop_left _ _]
      rw [List.dropWhile_cons_of_pos (by decide)]
      rw [hsl, List.cons_append, List.dropWhile_cons_of_neg (by simp [hcns]),
        ← List.cons_append, ← hsl]
    · have h3 := startsWith_append_self fenceJson ('\n' :: (s.toList ++ "\n```".toList))
      rw [show (fenceJson ++ ('\n' :: (s.toList ++ "\n```".toList)) : List Char) =
        btChar :: ("``json".toList ++ ('\n' :: (s.toList ++ "\n```".toList))) from by
          rw [fenceJson_shape]; rfl] at h3
      exact h3
  have e2 : stripJsonFences (s.toList ++ "\n```".toList) = s.toList ++ "\n```".toList :=
    sjf_no_occurrence (occursIn_fenceJson_append hq (by decide))
  have e3 := stf_append_fence hq
  unfold clean_json_response
  rw [e1, e2, e3, trim_append_newline hne hfront hback, mk_toList]

/-- Witness for the amended C8 at a concrete wrapped JSON object. -/
theorem clean_json_response_json_fence_stripped_witness :
    clean_json_response ("```json\n" ++ "\x7b\"root\": \"Topic\", \"children\": []\x7d" ++ "\n```") =
      "\x7b\"root\": \"Topic\", \"children\": []\x7d" :=
  clean_json_response_json_fence_stripped "\x7b\"root\": \"Topic\", \"children\": []\x7d" (by decide) (by decide) (by decide) (by decide)

/-- C8 counterexample: a JSON object wrapped in plain ``` fences without a
language tag is not recovered — the opening fence survives the cleanup, so
parsing the cleaned content cannot succeed on the enclosed JSON. -/
theorem clean_json_response_plain_fence_not_stripped :
    clean_json_response "```\n\x7b\"root\": \"T\", \"children\": []\x7d\n```" ≠
      "\x7b\"root\": \"T\", \"children\": []\x7d" ∧
    occursIn "`".toList
      (clean_json_response "```\n\x7b\"root\": \"T\", \"children\": []\x7d\n```").toList = true := by
  have h1 : stripJsonFences ("```\n\x7b\"root\": \"T\", \"children\": []\x7d\n```".toList) =
      "```\n\x7b\"root\": \"T\", \"children\": []\x7d\n```".toList :=
    sjf_no_occurrence (by decide)
  have h2 : clean_json_response "```\n\x7b\"root\": \"T\", \"children\": []\x7d\n```" =
      String.mk (trimL (stripTrailingFence
        ("```\n\x7b\"root\": \"T\", \"children\": []\x7d\n```".toList))) := by
    simp only [clean_json_response, h1]
  rw [h2]
  constructor
  · decide
  · decide


/-! ### Claims C4 and C5 — the two-tier segmentation strategy -/

theorem splitOnNN_ne_nil : ∀ l : List Char, splitOnNN l ≠ [] := by
  intro l
  match l with
  | [] => simp [splitOnNN]
  | [c] => simp [splitOnNN]
  | c :: c2 :: rest =>
    simp only [splitOnNN]
    split
    · simp
    · cases splitOnNN (c2 :: rest) <;> simp [consHead]

theorem splitRuns_ne_nil : ∀ (N : Nat) (l : List Char), l.length ≤ N → splitRuns l ≠ [] := by
  intro N
  induction N with
  | zero =>
    intro l h
    rw [List.length_eq_zero.mp (Nat.le_zero.mp h), sr_nil]
    simp
  | succ N ih =>
    intro l h
    match l with
    | [] => rw [sr_nil]; simp
    | [c] => rw [sr_single]; simp
    | c :: c2 :: rest =>
      rw [sr_cons2]
      split
      · simp
      · have := ih (c2 :: rest) (by simp at h ⊢; omega)
        cases splitRuns (c2 :: rest) <;> simp [consHead]



theorem trim_cons_space {c : Char} (hc : pyIsSpace c = true) (x : List Char) :
    trimL (c :: x) = trimL x := by
  unfold trimL
  rw [List.dropWhile_cons_of_pos hc]

theorem stripAndDiscard_cons (h : List Char) (t : List (List Char)) :
    stripAndDiscard (h :: t) =
      if (trimL h).isEmpty = true then stripAndDiscard t
      else trimL h :: stripAndDiscard t := by
  simp only [stripAndDiscard, List.map_cons, List.filter_cons]
  by_cases he : (trimL h).isEmpty = true <;> simp [he]

theorem trim_singleton_space {c : Char} (hc : pyIsSpace c = true) : trimL [c] = [] := by
  unfold trimL
  rw [List.dropWhile_cons_of_pos hc]
  rfl

theorem stripAndDiscard_consHead_space {c : Char} (hc : pyIsSpace c = true)
    (S : List (List Char)) :
    stripAndDiscard (consHead c S) = stripAndDiscard S := by
  cases S with
  | nil =>
    simp only [consHead, stripAndDiscard_cons, trim_singleton_space hc]
    rfl
  | cons h t =>
    simp only [consHead, stripAndDiscard_cons, trim_cons_space hc]

theorem blocksCode_cons_nl : ∀ xs : List Char, blocksCode ('\n' :: xs) = blocksCode xs := by
  intro xs
  induction xs with
  | nil => decide
  | cons c2 rest ih =>
    by_cases hc2 : c2 = '\n'
    · subst hc2
      have h1 : blocksCode ('\n' :: '\n' :: rest) = blocksCode rest := by
        simp only [blocksCode, splitOnNN, if_pos (by simp : ('\n' == '\n' && '\n' == '\n') = true)]
        rw [stripAndDiscard_cons]
        simp [trimL]
      rw [h1, ih]
    · have hcond : ('\n' == '\n' && c2 == '\n') = false := by
        simp [hc2]
      simp only [blocksCode, splitOnNN, if_neg (by simp [hc2] : ¬ ('\n' == '\n' && c2 == '\n') = true)]
      exact stripAndDiscard_consHead_space (show pyIsSpace '\n' = true by decide) _

theorem blocksCode_dropWhile_nl : ∀ x : List Char,
    blocksCode (x.dropWhile (fun c => c == '\n')) = blocksCode x := by
  intro x
  induction x with
  | nil => rfl
  | cons c xs ih =>
    by_cases hc : (c == '\n') = true
    · have hc' : c = '\n' := by simpa using hc
      subst hc'
      rw [List.dropWhile_cons_of_pos (p := fun x => x == '\n') (by simp), ih,
        blocksCode_cons_nl]
    · rw [List.dropWhile_cons_of_neg (p := fun x => x == '\n') (by simpa using hc)]



theorem blocksEq_of_heads_tails {l : List Char}
    (h1 : (splitOnNN l).headD [] = (splitRuns l).headD [])
    (h2 : stripAndDiscard (splitOnNN l).tail = stripAndDiscard (splitRuns l).tail) :
    blocksCode l = blocksSpec l := by
  obtain ⟨a, as, ha⟩ := List.exists_cons_of_ne_nil (splitOnNN_ne_nil l)
  obtain ⟨b, bs, hb⟩ := List.exists_cons_of_ne_nil (splitRuns_ne_nil l.length l le_rfl)
  rw [ha, hb] at h1 h2
  simp only [List.headD_cons, List.tail_cons] at h1 h2
  rw [blocksCode, blocksSpec, ha, hb, stripAndDiscard_cons, stripAndDiscard_cons, h1, h2]

theorem splitOn_splitRuns_key : ∀ (N : Nat) (l : List Char), l.length ≤ N →
    (splitOnNN l).headD [] = (splitRuns l).headD [] ∧
    stripAndDiscard (splitOnNN l).tail = stripAndDiscard (splitRuns l).tail := by
  intro N
  induction N with
  | zero =>
    intro l h
    rw [List.length_eq_zero.mp (Nat.le_zero.mp h), sr_nil]
    exact ⟨rfl, rfl⟩
  | succ N ih =>
    intro l hlen
    match l with
    | [] => rw [sr_nil]; exact ⟨rfl, rfl⟩
    | [c] => rw [sr_single]; exact ⟨rfl, rfl⟩
    | c :: c2 :: rest =>
      by_cases hnn : (c == '\n' && c2 == '\n') = true
      · rw [show splitOnNN (c :: c2 :: rest) = [] :: splitOnNN rest from by
          simp [splitOnNN, hnn], sr_cons2, if_pos hnn]
        refine ⟨rfl, ?_⟩
        simp only [List.tail_cons]
        show blocksCode rest = blocksSpec (rest.dropWhile (fun x => x == '\n'))
        have h3 : (rest.dropWhile (fun x => x == '\n')).length ≤ N := by
          simp only [List.length_cons] at hlen
          have := length_dropWhile_le (fun x => x == '\n') rest
          omega
        calc blocksCode rest
            = blocksCode (rest.dropWhile (fun x => x == '\n')) :=
              (blocksCode_dropWhile_nl rest).symm
          _ = blocksSpec (rest.dropWhile (fun x => x == '\n')) :=
              blocksEq_of_heads_tails (ih _ h3).1 (ih _ h3).2
      · rw [show splitOnNN (c :: c2 :: rest) = consHead c (splitOnNN (c2 :: rest)) from by
          simp [splitOnNN, hnn], sr_cons2, if_neg hnn]
        obtain ⟨a, as, ha⟩ := List.exists_cons_of_ne_nil (splitOnNN_ne_nil (c2 :: rest))
        obtain ⟨b, bs, hb⟩ :=
          List.exists_cons_of_ne_nil (splitRuns_ne_nil (c2 :: rest).length (c2 :: rest) le_rfl)
        have hih := ih (c2 :: rest) (by simp only [List.length_cons] at hlen ⊢; omega)
        rw [ha, hb] at hih
        simp only [List.headD_cons, List.tail_cons] at hih
        rw [ha, hb]
        simp only [consHead, List.headD_cons, List.tail_cons]
        exact ⟨by rw [hih.1], hih.2⟩

theorem blocks_equiv (l : List Char) : blocksCode l = blocksSpec l :=
  blocksEq_of_heads_tails (splitOn_splitRuns_key l.length l le_rfl).1
    (splitOn_splitRuns_key l.length l le_rfl).2



theorem length_stripAndDiscard (xs : List (List Char)) :
    (stripAndDiscard xs).length = (xs.filter (fun x => !(trimL x).isEmpty)).length := by
  induction xs with
  | nil => rfl
  | cons h t ih =>
    rw [stripAndDiscard_cons, List.filter_cons]
    by_cases he : (trimL h).isEmpty = true
    · simp [he, ih]
    · simp only [Bool.not_eq_true] at he
      simp [he, ih]

/-- C4: for every page text with two or more blocks separated by
blank-line boundaries (maximal runs of two or more consecutive newlines,
trimmed, with empty chunks discarded: `blocksSpec`), segmentation uses
strategy A — the code's split on a pair of newline characters with trim
and discard (`blocksCode`), proved to coincide with the
blank-line-boundary split — and the resulting paragraph list has exactly
that block count. -/
theorem segmentation_blankline_strategyA (s : String) (h : 2 ≤ (blocksSpec s.toList).length) :
    segment s = (blocksCode s.toList).map String.mk ∧
    blocksCode s.toList = blocksSpec s.toList ∧
    (segment s).length = (blocksSpec s.toList).length := by
  have he := blocks_equiv s.toList
  have hgt : ¬ (blocksCode s.toList).length ≤ 1 := by rw [he]; omega
  have hseg : segment s = (blocksCode s.toList).map String.mk := by
    show ((if (blocksCode s.toList).length ≤ 1 then linesFallback s.toList
      else blocksCode s.toList).map String.mk) = (blocksCode s.toList).map String.mk
    rw [if_neg hgt]
  refine ⟨hseg, he, ?_⟩
  rw [hseg, List.length_map, he]

/-- Witness for C4 at the spec's own example page text. -/
theorem segmentation_blankline_strategyA_witness :
    segment "Para one.\n\nPara two." =
      (blocksCode "Para one.\n\nPara two.".toList).map String.mk ∧
    blocksCode "Para one.\n\nPara two.".toList = blocksSpec "Para one.\n\nPara two.".toList ∧
    (segment "Para one.\n\nPara two.").length =
      (blocksSpec "Para one.\n\nPara two.".toList).length :=
  segmentation_blankline_strategyA "Para one.\n\nPara two." (by rw [← blocks_equiv]; decide)

/-- C5: for every page text whose blank-line split yields 0 or 1 blocks,
segmentation falls back to splitting on single newlines (trim each line,
discard empties), and the result length equals the number of lines of the
page text whose trimmed content is non-empty. -/
theorem segmentation_fallback_lines (s : String) (h : (blocksSpec s.toList).length ≤ 1) :
    segment s = (linesFallback s.toList).map String.mk ∧
    (segment s).length =
      ((splitNL s.toList).filter (fun x => !(trimL x).isEmpty)).length := by
  have he := blocks_equiv s.toList
  have hle : (blocksCode s.toList).length ≤ 1 := by rw [he]; exact h
  have hseg : segment s = (linesFallback s.toList).map String.mk := by
    show ((if (blocksCode s.toList).length ≤ 1 then linesFallback s.toList
      else blocksCode s.toList).map String.mk) = (linesFallback s.toList).map String.mk
    rw [if_pos hle]
  refine ⟨hseg, ?_⟩
  rw [hseg, List.length_map, linesFallback]
  exact length_stripAndDiscard _

/-- Witness for C5 at a two-line page text with no blank line. -/
theorem segmentation_fallback_lines_witness :
    segment "line one\nline two" = (linesFallback "line one\nline two".toList).map String.mk ∧
    (segment "line one\nline two").length =
      ((splitNL "line one\nline two".toList).filter (fun x => !(trimL x).isEmpty)).length :=
  segmentation_fallback_lines "line one\nline two" (by rw [← blocks_equiv]; decide)

end Mindmap
